import Mathlib

/-!
# Verification of the JeGOX request-pipeline resource-management layer

Shallow embedding, in Lean 4, of the algorithmic core of the repository:

* `app/services/cache_service.py` — `LRUCache` (expiring LRU cache);
* `app/core/security.py`          — `SecurityManager.check_rate_limit` and
  `SecurityManager.validate_input`;
* `app/services/batch_service.py` — `BatchProcessor.add_to_batch` and
  `BatchService.process_embedding_batch`;
* `app/services/chat_service.py`  — `ChatService.process_message` (control-flow
  prefix and confidence assignment), `ChatService.get_relevant_context`
  (dedupe/filter stage), `ChatService._prioritize_documents` and
  `ChatService._build_token_managed_context`;
* `app/services/openai_service.py` — `OpenAIService.calculate_confidence`.

Modelling conventions, used throughout:

* Python `float` time stamps and scores are modelled as `ℚ`; Python `int`
  arithmetic is modelled as `ℤ`/`ℕ` (with Python's floor division `//` on
  non-negative values being `Nat` division).
* Python strings are modelled as `List Char`; `str.lower` as
  `List.map Char.toLower`; the containment test `needle in hay` as
  `isSubstring`.
* The SHA-256 key fingerprint of `LRUCache._generate_key` is modelled as the
  identity on an abstract key type: it is deterministic and assumed
  collision-free, so distinct keys are distinct fingerprints.
* `collections.OrderedDict` is modelled as an association list whose *front*
  is the least-recently-used end and whose *back* is the most-recently-used
  end; `move_to_end` is remove-then-append (keys are unique in a dict).
-/

namespace Spec2Proof

/-! ## Generic association-list helpers (model of Python `dict` access) -/

/-- Look a key up in an association list (first match). -/
def assocFind {K A : Type} [DecidableEq K] : List (K × A) → K → Option A
  | [], _ => none
  | (k', a) :: rest, k => if k' = k then some a else assocFind rest k

/-- Remove every pair with the given key (a Python dict holds it at most once). -/
def assocErase {K A : Type} [DecidableEq K] : List (K × A) → K → List (K × A)
  | [], _ => []
  | (k', a) :: rest, k =>
      if k' = k then assocErase rest k else (k', a) :: assocErase rest k

/-- Replace, in place, the value stored under a key. -/
def assocReplace {K A : Type} [DecidableEq K] : List (K × A) → K → A → List (K × A)
  | [], _, _ => []
  | (k', a) :: rest, k, b =>
      if k' = k then (k', b) :: assocReplace rest k b else (k', a) :: assocReplace rest k b

/-! ## `LRUCache` — `app/services/cache_service.py`, lines 9–76

`CacheItem.__init__` stores `value`, `expire_time`, `hits = 0`.
`LRUCache` keeps an `OrderedDict` (front = least recently used) and a
`max_size`.  The SHA-256 `_generate_key` step is modelled as the identity on
an abstract key type `K` (deterministic, collision-free). -/
structure CacheItem (V : Type) where
  value : V
  expire_time : ℚ
  hits : ℕ
deriving DecidableEq

structure LRUCache (K V : Type) where
  max_size : ℕ
  cache : List (K × CacheItem V)
deriving DecidableEq

/-- The `while len(self.cache) > self.max_size: self.cache.popitem(last=False)`
loop of `LRUCache.set` (cache_service.py lines 64–65): drop from the
least-recently-used front until at most `max_size` entries remain. -/
def evictOverflow {K V : Type} (max_size : ℕ) (l : List (K × CacheItem V)) :
    List (K × CacheItem V) :=
  if h : max_size < l.length then evictOverflow max_size l.tail else l
termination_by l.length
decreasing_by
  cases l with
  | nil => simp at h
  | cons p rest => simp

/-- `LRUCache.get` (cache_service.py lines 31–47): on a present, live entry
(`expire_time > now`) move it to the most-recently-used end, bump `hits` and
return the value; on a present-but-expired entry delete it and return `None`;
on an absent key return `None`.  Returns the result and the new cache. -/
def LRUCache.get {K V : Type} [DecidableEq K] (c : LRUCache K V) (k : K) (now : ℚ) :
    Option V × LRUCache K V :=
  match assocFind c.cache k with
  | none => (none, c)
  | some item =>
      if now < item.expire_time then
        (some item.value,
         { c with cache := assocErase c.cache k ++ [(k, { item with hits := item.hits + 1 })] })
      else
        (none, { c with cache := assocErase c.cache k })

/-- `LRUCache.set` (cache_service.py lines 49–65): store a fresh
`CacheItem(value, now + expire_seconds)` under the key, move it to the
most-recently-used end (`dict` assignment plus `move_to_end` amounts to
remove-then-append), then evict from the least-recently-used end while the
size exceeds `max_size`. -/
def LRUCache.set {K V : Type} [DecidableEq K] (c : LRUCache K V) (k : K) (v : V)
    (now expire_seconds : ℚ) : LRUCache K V :=
  { c with
    cache := evictOverflow c.max_size
      (assocErase c.cache k ++ [(k, ⟨v, now + expire_seconds, 0⟩)]) }

/-- `LRUCache.cleanup` (cache_service.py lines 67–76): delete every entry
whose `expire_time <= now`, keeping the others in order. -/
def LRUCache.cleanup {K V : Type} (c : LRUCache K V) (now : ℚ) : LRUCache K V :=
  { c with cache := c.cache.filter (fun p => decide (now < p.2.expire_time)) }

/-- Insert a list of key/value pairs one `set` at a time (all with the same
time stamp and TTL) — the "inserting `max_size + 1` distinct keys" scenario. -/
def LRUCache.setMany {K V : Type} [DecidableEq K] (c : LRUCache K V)
    (kvs : List (K × V)) (now expire_seconds : ℚ) : LRUCache K V :=
  kvs.foldl (fun acc kv => acc.set kv.1 kv.2 now expire_seconds) c

/-! ## Rate limiter — `app/core/security.py`, lines 67–91

`SecurityManager.check_rate_limit` keeps, per client IP, a list of request
time stamps.  On each call it appends the current time, keeps only the
entries with `current_time - t < 60`, stores that pruned window back, and
admits the request iff the pruned window (which contains the current request
itself) has length `<= settings.MAX_REQUESTS_PER_MINUTE`.  The opportunistic
`_cleanup_old_requests` sweep only removes already-out-of-window entries of
idle identities and does not change admission decisions, so it is not part of
this model. -/

/-- One `check_rate_limit` call for a single identity: the admission verdict
and the identity's stored window afterwards. -/
def check_rate_limit (max_requests : ℕ) (window : List ℚ) (now : ℚ) :
    Bool × List ℚ :=
  let appended := window ++ [now]
  let recent := appended.filter (fun t => decide (now - t < 60))
  (decide (recent.length ≤ max_requests), recent)

/-- A sequence of `check_rate_limit` calls from one identity (whose window
starts out absent, i.e. empty), returning the list of verdicts. -/
def rate_limit_run (max_requests : ℕ) (times : List ℚ) : List Bool × List ℚ :=
  times.foldl
    (fun acc t =>
      let r := check_rate_limit max_requests acc.2 t
      (acc.1 ++ [r.1], r.2))
    ([], [])

/-! ## Batch processor — `app/services/batch_service.py`

### Critical-section trace (`BatchProcessor.add_to_batch`, lines 36–62)

The whole body of `add_to_batch` sits inside `async with self._lock:`:
entering the block acquires the lock and leaving it (by `return` or by
exception) releases it.  The observable sequence of events of one call is
therefore fixed by the source:

* flushing call — acquire (line 36), append (37), swap in a fresh empty
  pending batch (46–47), `await processor(batch_to_process)` (51), and only
  then, on `return` (54), release;
* non-flushing call — acquire (36), append (37), create the future and
  `await future` (60–62), release on return.
-/
inductive BatchEvent where
  | acquireLock
  | appendItem
  | swapBatch
  | invokeProcessor
  | awaitFuture
  | releaseLock
deriving DecidableEq

/-- The event trace of one `add_to_batch` call, read off the source
line-by-line (see the section header). -/
def add_to_batch_events (flush : Bool) : List BatchEvent :=
  if flush then
    [.acquireLock, .appendItem, .swapBatch, .invokeProcessor, .releaseLock]
  else
    [.acquireLock, .appendItem, .awaitFuture, .releaseLock]

/-- Net number of lock acquisitions minus releases in a trace prefix. -/
def lockBalance (tr : List BatchEvent) : ℤ :=
  tr.foldl
    (fun b ev =>
      match ev with
      | .acquireLock => b + 1
      | .releaseLock => b - 1
      | _ => b)
    0

/-- Every occurrence of `ev` in the trace happens while the lock is held
(positive balance of acquisitions over releases before it). -/
def allUnderLock (tr : List BatchEvent) (ev : BatchEvent) : Bool :=
  tr.enum.all (fun p => !(p.2 = ev : Bool) || decide (0 < lockBalance (tr.take p.1)))

/-- Every occurrence of `ev` in the trace happens while the lock is free. -/
def allOutsideLock (tr : List BatchEvent) (ev : BatchEvent) : Bool :=
  tr.enum.all (fun p => !(p.2 = ev : Bool) || decide (lockBalance (tr.take p.1) ≤ 0))

/-! ### Flush decision (`BatchProcessor.__init__` lines 10–19 and
`add_to_batch` lines 36–48)

State: `batch_size`, `max_wait_time`, the pending `current_batch`, and
`last_process_time`, initialised to `time.time()` at construction and reset
to the current time on every flush.  `add_to_batch` appends the item and
flushes iff `len(current_batch) >= batch_size` or
`current_time - last_process_time >= max_wait_time`, swapping in a fresh
empty list when it flushes.  (The model returns the flushed batch instead of
threading the per-item result selection `results[batch_to_process.index(item)]`,
which the claims do not concern.) -/
structure BatchProcessorState (I : Type) where
  batch_size : ℕ
  max_wait_time : ℚ
  current_batch : List I
  last_process_time : ℚ
deriving DecidableEq

/-- One `add_to_batch` call at time `now`: the flushed batch (if any) and the
successor state. -/
def add_to_batch {I : Type} (s : BatchProcessorState I) (item : I) (now : ℚ) :
    Option (List I) × BatchProcessorState I :=
  let batch' := s.current_batch ++ [item]
  if decide (s.batch_size ≤ batch'.length)
      || decide (s.max_wait_time ≤ now - s.last_process_time) then
    (some batch', { s with current_batch := [], last_process_time := now })
  else
    (none, { s with current_batch := batch' })

/-- The flush rule exactly as claim C2 words it: the batch clock
(`batch_opened_at`) opens at the first submission into an *empty* pending
batch, and a call flushes iff the pending length (after appending) reaches
`batch_size` or `now - batch_opened_at` reaches `max_wait_time`.  This
definition follows the claim's words, to be compared with `add_to_batch`
(which follows the source). -/
structure SpecBatchState (I : Type) where
  batch_size : ℕ
  max_wait_time : ℚ
  pending : List I
  batch_opened_at : ℚ
deriving DecidableEq

def spec_add_to_batch {I : Type} (s : SpecBatchState I) (item : I) (now : ℚ) :
    Option (List I) × SpecBatchState I :=
  let opened := if s.pending.isEmpty then now else s.batch_opened_at
  let batch' := s.pending ++ [item]
  if decide (s.batch_size ≤ batch'.length)
      || decide (s.max_wait_time ≤ now - opened) then
    (some batch', { s with pending := [], batch_opened_at := opened })
  else
    (none, { s with pending := batch', batch_opened_at := opened })

/-! ### `BatchService.process_embedding_batch` — batch_service.py lines 83–107

Items are dicts `{'text': ..., 'future': ...}` where the `'future'` key is
present exactly for the submitters that did not trigger the flush.  On
success the function zips the batch with the embedding results and calls
`set_result` on every present future; if `_get_embeddings` raises it calls
`set_exception(e)` on every present future and re-raises.  The model returns
the `Except` outcome together with the list of future resolutions it
performed. -/
structure BItem (P : Type) where
  payload : P
  hasFuture : Bool
deriving DecidableEq

inductive FutureOutcome (R E : Type) where
  | set_result (r : R)
  | set_exception (e : E)
deriving DecidableEq

def process_embedding_batch {P R E : Type}
    (get_embeddings : List P → Except E (List R)) (batch : List (BItem P)) :
    Except E (List R) × List (BItem P × FutureOutcome R E) :=
  match get_embeddings (batch.map BItem.payload) with
  | .ok results =>
      (.ok results,
        ((batch.zip results).filter (fun p => p.1.hasFuture)).map
          (fun p => (p.1, FutureOutcome.set_result p.2)))
  | .error e =>
      (.error e,
        (batch.filter (fun it => it.hasFuture)).map
          (fun it => (it, FutureOutcome.set_exception e)))

/-! ## Python string helpers

Python strings are modelled as `List Char`. -/

/-- The characters `str.strip()` / `str.split()` treat as whitespace. -/
def isPySpace (c : Char) : Bool :=
  c = ' ' || c = '\t' || c = '\n' || c = '\r' || c = '\x0b' || c = '\x0c'

/-- `str.strip()`: drop leading and trailing whitespace. -/
def pyStrip (s : List Char) : List Char :=
  ((s.dropWhile isPySpace).reverse.dropWhile isPySpace).reverse

/-- `str.split()` with no argument: split on runs of whitespace, no empty
words. -/
def splitWs (s : List Char) : List (List Char) :=
  (List.splitOnP isPySpace s).filter (fun w => !w.isEmpty)

/-- `" ".join(query.lower().split())` — the normalisation
`CacheService.cache_response` / `get_cached_response` apply to a query
(cache_service.py lines 120 and 132). -/
def normalize_query (q : List Char) : List Char :=
  List.intercalate [' '] (splitWs (q.map Char.toLower))

/-- Python slicing `s[:n]` for an `int` bound `n`: a non-negative bound keeps
the first `n` characters; a negative bound drops the last `|n|` (clamping at
the ends). -/
def pyTake (n : ℤ) (s : List Char) : List Char :=
  if 0 ≤ n then s.take n.toNat else s.take (s.length - n.natAbs)

/-- Does the string contain, on one line, an occurrence of `pre` followed
(possibly later) by an occurrence of `post`?  This is `re.search` existence
for the Python patterns `{{.*}}` and `<script.*?>`: `.` does not match a
newline, so the gap may not contain one.  `findPostNoNL post s` is the inner
search: an occurrence of `post` in `s` preceded only by non-newline
characters. -/
def findPostNoNL (post : List Char) : List Char → Bool
  | [] => post.isEmpty
  | c :: rest => post.isPrefixOf (c :: rest) || (!(c = '\n' : Bool) && findPostNoNL post rest)

def searchPreGapPost (pre post : List Char) : List Char → Bool
  | [] => pre.isEmpty && post.isEmpty
  | c :: rest =>
      (pre.isPrefixOf (c :: rest) && findPostNoNL post ((c :: rest).drop pre.length))
      || searchPreGapPost pre post rest

/-- Python's containment test `needle in hay` on strings. -/
def isSubstring (needle : List Char) : List Char → Bool
  | [] => needle.isEmpty
  | c :: rest => needle.isPrefixOf (c :: rest) || isSubstring needle rest

/-- The brace characters of the template-injection pattern (code points 123
and 125). -/
def lbrace : Char := Char.ofNat 123

def rbrace : Char := Char.ofNat 125

/-- `SecurityManager.validate_input` — security.py lines 24–45.  Reject empty
input, input longer than 1000 characters, and input matching one of the
injection patterns: doubled braces around a same-line gap (template
injection), `<script.*?>`, and the case-insensitive substring tests
`(?i)system\(` and `(?i)exec\(`. -/
def validate_input (text : List Char) : Bool :=
  if text.isEmpty || decide (1000 < text.length) then false
  else if searchPreGapPost [lbrace, lbrace] [rbrace, rbrace] text then false
  else if searchPreGapPost "<script".toList ['>'] text then false
  else if isSubstring "system(".toList (text.map Char.toLower) then false
  else if isSubstring "exec(".toList (text.map Char.toLower) then false
  else true

/-! ## Confidence — `app/services/openai_service.py` lines 107–149, and the
pipeline's actual confidence assignment (`chat_service.py` line 99)

Python's `round(x, 2)` is modelled as `round (x * 100) / 100` with Mathlib's
`round` (half away from zero upward).  CPython rounds binary doubles half to
even; the two agree except at exact two-decimal midpoints, which the
developments below avoid. -/
def apos : Char := Char.ofNat 39

/-- The `uncertainty_markers` list of `calculate_confidence`. -/
def uncertainty_markers : List (List Char) :=
  ["i".toList ++ [apos] ++ "m not sure".toList,
   "might be".toList,
   "possibly".toList,
   "perhaps".toList,
   "may".toList,
   "could be".toList,
   "uncertain".toList,
   "unclear".toList,
   "don".toList ++ [apos] ++ "t know".toList,
   "not confident".toList]

def pyRound2 (q : ℚ) : ℚ := (round (q * 100) : ℤ) / 100

/-- `OpenAIService.calculate_confidence`: count uncertainty markers in the
lower-cased response, take `max(0, 1 - count * 0.1)`, damp by
`min(1, len(response) / 100)`, and round to two decimals. -/
def calculate_confidence (response : List Char) : ℚ :=
  let response_lower := response.map Char.toLower
  let uncertainty_count :=
    (uncertainty_markers.filter (fun m => isSubstring m response_lower)).length
  let base_confidence := max 0 (1 - (uncertainty_count : ℚ) * (1 / 10))
  let length_factor := min 1 ((response.length : ℚ) / 100)
  pyRound2 (base_confidence * length_factor)

/-! ## `ChatService.process_message` — `app/services/chat_service.py` lines 26–130

Control-flow prefix and response assembly, with the external collaborators
passed in as oracle values: `context` is what `get_relevant_context` returned
(`None` on failure, possibly the empty string) and `completion` is the
provider's response text.  The steps modelled, in source order: the response
cache is consulted **first** (line 30, via `cache_service.get_cached_response`,
which looks the normalised query up in `response_cache`); a cache hit returns
the stored dict at once (lines 31–46); only then is
`security_manager.validate_input` consulted, a failure raising
`ChatbotException` (lines 49–50); otherwise the response dict is built with
`confidence = 0.9 if context else 0.5` (line 99) and
`needs_human = confidence < 0.4` (line 114). -/
structure ResponseData where
  response : List Char
  confidence : ℚ
  needs_human : Bool
  context_used : Bool
deriving DecidableEq

inductive PMOutcome where
  | cacheHit (r : ResponseData)
  | invalidInput
  | completed (r : ResponseData)
deriving DecidableEq

/-- Python truthiness of the `context` value at lines 72/99/106: `None` and
the empty string are falsy. -/
def truthyCtx : Option (List Char) → Bool
  | none => false
  | some s => !s.isEmpty

def process_message (response_cache : LRUCache (List Char) ResponseData)
    (now : ℚ) (message : List Char) (context : Option (List Char))
    (completion : List Char) : PMOutcome :=
  match (response_cache.get (normalize_query message) now).1 with
  | some r => PMOutcome.cacheHit r
  | none =>
      if !validate_input message then PMOutcome.invalidInput
      else
        let ctx := truthyCtx context
        let confidence : ℚ := if ctx then 9 / 10 else 1 / 2
        PMOutcome.completed
          { response := completion
            confidence := confidence
            needs_human := decide (confidence < 2 / 5)
            context_used := ctx }

/-! ## Context assembly — `app/services/chat_service.py` lines 136–287

A retrieved hit is a dict `{text, score, file_name, chunk_hash?}`;
`_prioritize_documents` writes a `priority_score` key into it.  The model
carries all five fields (`priority_score` starts at an arbitrary value,
conventionally 0, and is overwritten by `prioritize_documents` before any
use).  Python's `hash` of the leading 100-character slice (line 178) is an
arbitrary deterministic fingerprint, so it is a parameter `fp`. -/
structure Doc where
  text : List Char
  score : ℚ
  file_name : List Char
  chunk_hash : Option ℤ
  priority_score : ℚ
deriving DecidableEq

/-- `doc.get('chunk_hash', hash(doc.get('text', '')[:100]))` — line 178. -/
def doc_id (fp : List Char → ℤ) (d : Doc) : ℤ :=
  match d.chunk_hash with
  | some h => h
  | none => fp (d.text.take 100)

/-- One step of the dedupe/filter loop (lines 176–180): keep the hit only if
its score clears the threshold, and on a fingerprint collision keep the hit
with the strictly higher score (first in wins ties). -/
def dedupe_step (fp : List Char → ℤ) (threshold : ℚ)
    (acc : List (ℤ × Doc)) (doc : Doc) : List (ℤ × Doc) :=
  if decide (threshold < doc.score) then
    match assocFind acc (doc_id fp doc) with
    | none => acc ++ [(doc_id fp doc, doc)]
    | some old =>
        if decide (old.score < doc.score) then
          assocReplace acc (doc_id fp doc) doc
        else acc
  else acc

/-- The `unique_results` dict after the whole loop (lines 175–180). -/
def dedupe_filter (fp : List Char → ℤ) (threshold : ℚ) (docs : List Doc) :
    List (ℤ × Doc) :=
  docs.foldl (dedupe_step fp threshold) []

/-- `filtered_docs = sorted(unique_results.values(), key=score, reverse=True)`
(line 183) — stable descending sort of the surviving hits. -/
def filtered_docs (fp : List Char → ℤ) (threshold : ℚ) (docs : List Doc) :
    List Doc :=
  ((dedupe_filter fp threshold docs).map Prod.snd).mergeSort
    (fun a b => decide (b.score ≤ a.score))

/-- The score-boost pass of `_prioritize_documents` (lines 250–267). -/
def boost (message_lower : List Char) (d : Doc) : Doc :=
  let filename := d.file_name.map Char.toLower
  let text := d.text.map Char.toLower
  if (splitWs message_lower).any (fun term => isSubstring term filename) then
    { d with priority_score := d.score * (3 / 2) }
  else if isSubstring "specification".toList message_lower
      && isSubstring "specification".toList text then
    { d with priority_score := d.score * (13 / 10) }
  else if (["complete".toList, "all".toList, "overview".toList,
      "comprehensive".toList]).any (fun w => isSubstring w message_lower) then
    { d with priority_score := d.score * (6 / 5) }
  else
    { d with priority_score := d.score }

/-- `doc.get('file_name', '').split('[')[0]` — the product grouping key
(lines 232 and 278). -/
def productOf (d : Doc) : List Char :=
  d.file_name.takeWhile (fun c => !(c = '[' : Bool))

/-- First diversity pass (lines 276–281): keep the highest-ranked document of
each product, in rank order. -/
def diversityFirstPass : List Doc → List (List Char) → List Doc
  | [], _ => []
  | d :: rest, seen =>
      if productOf d ∈ seen then diversityFirstPass rest seen
      else d :: diversityFirstPass rest (productOf d :: seen)

/-- `_prioritize_documents` (lines 247–287): boost, stable-sort by
`priority_score` descending, then one representative per product followed by
the remaining documents in rank order. -/
def prioritize_documents (docs : List Doc) (message : List Char) : List Doc :=
  let message_lower := message.map Char.toLower
  let boosted := docs.map (boost message_lower)
  let sorted_docs :=
    boosted.mergeSort (fun a b => decide (b.priority_score ≤ a.priority_score))
  let diverse_docs := diversityFirstPass sorted_docs []
  diverse_docs ++ sorted_docs.filter (fun d => decide (d ∉ diverse_docs))

def highRelPrefix : List Char := "[High Relevance] ".toList

/-- The packing loop of `_build_token_managed_context` (lines 209–238):
skip stripped texts shorter than 50 characters; estimate tokens as
`len(text) // 4`; append while the estimate fits; when the next candidate
overflows, truncate it to the remaining allowance (minus a 100-token buffer)
if its score exceeds 0.7 and less than 80% of the budget is used, then stop;
otherwise stop at once. -/
def packLoop (max_tokens : ℕ) : List Doc → List (List Char) → ℕ →
    List (List Char) × ℕ
  | [], parts, total_tokens => (parts, total_tokens)
  | doc :: rest, parts, total_tokens =>
      let text := pyStrip doc.text
      if text.isEmpty || decide (text.length < 50) then
        packLoop max_tokens rest parts total_tokens
      else
        let estimated_tokens := text.length / 4
        if decide (max_tokens < total_tokens + estimated_tokens) then
          if decide ((7 : ℚ) / 10 < doc.score)
              && decide ((total_tokens : ℚ) < (max_tokens : ℚ) * (8 / 10)) then
            let remaining_tokens : ℤ := (max_tokens : ℤ) - (total_tokens : ℤ) - 100
            let max_chars : ℤ := remaining_tokens * 4
            let truncated_text := pyTake max_chars text ++ "...".toList
            (parts ++ [highRelPrefix ++ truncated_text],
              total_tokens + truncated_text.length / 4)
          else
            (parts, total_tokens)
        else
          packLoop max_tokens rest (parts ++ [text]) (total_tokens + estimated_tokens)

/-- `_build_token_managed_context` (lines 194–245): prioritize, then pack.
The model returns the emitted `context_parts` together with the final
`total_tokens` (the source joins the parts with `"\n\n---\n\n"`). -/
def build_token_managed_context (docs : List Doc) (max_tokens : ℕ)
    (message : List Char) : List (List Char) × ℕ :=
  packLoop max_tokens (prioritize_documents docs message) [] 0

/-- Estimated token sum of emitted parts, with the source's
4-characters-per-token rule. -/
def sumEst (parts : List (List Char)) : ℕ :=
  (parts.map (fun p => p.length / 4)).sum

/-- A single retrieved document of 404 characters with similarity score 1,
submitted to the context builder with a 50-token budget. -/
def overflow_doc : Doc :=
  ⟨List.replicate 404 'a', 1, "f".toList, none, 0⟩

/-- `overflow_doc` after `_prioritize_documents` (no boost applies to an
empty message). -/
def overflow_boosted : Doc :=
  ⟨List.replicate 404 'a', 1, "f".toList, none, 1⟩

/-- Three retrieved documents of estimated size 1000 tokens (4000 characters)
each, from three distinct sources, all with score 1. -/
def pack_docs : List Doc :=
  [⟨List.replicate 4000 'a', 1, "f1".toList, none, 0⟩,
   ⟨List.replicate 4000 'a', 1, "f2".toList, none, 0⟩,
   ⟨List.replicate 4000 'a', 1, "f3".toList, none, 0⟩]

/-- `pack_docs` after `_prioritize_documents` with an empty message. -/
def pack_docs_boosted : List Doc :=
  [⟨List.replicate 4000 'a', 1, "f1".toList, none, 1⟩,
   ⟨List.replicate 4000 'a', 1, "f2".toList, none, 1⟩,
   ⟨List.replicate 4000 'a', 1, "f3".toList, none, 1⟩]

/-! ## Theorems -/

theorem assocFind_append_right {K A : Type} [DecidableEq K]
    (l : List (K × A)) (k : K) (a : A) (h : ∀ p ∈ l, p.1 ≠ k) :
    assocFind (l ++ [(k, a)]) k = some a := by
  induction l with
  | nil => simp [assocFind]
  | cons p rest ih =>
      have hp : p.1 ≠ k := h p (by simp)
      cases p with
      | mk k' a' =>
          simp only [List.cons_append, assocFind]
          rw [if_neg hp]
          exact ih (fun q hq => h q (by simp [hq]))

theorem assocErase_keys {K A : Type} [DecidableEq K]
    (l : List (K × A)) (k : K) : ∀ p ∈ assocErase l k, p.1 ≠ k := by
  induction l with
  | nil => simp [assocErase]
  | cons q rest ih =>
      cases q with
      | mk k' a' =>
          intro p hp
          simp only [assocErase] at hp
          by_cases hk : k' = k
          · exact ih p (by simpa [hk] using hp)
          · rcases (by simpa [hk] using hp : p = (k', a') ∨ p ∈ assocErase rest k) with h | h
            · simpa [h] using hk
            · exact ih p h

theorem assocFind_eq_none_of_keys_ne {K A : Type} [DecidableEq K]
    (l : List (K × A)) (k : K) (h : ∀ p ∈ l, p.1 ≠ k) :
    assocFind l k = none := by
  induction l with
  | nil => rfl
  | cons p rest ih =>
      cases p with
      | mk k' a' =>
          simp only [assocFind]
          rw [if_neg (h (k', a') (by simp))]
          exact ih (fun q hq => h q (by simp [hq]))

theorem assocErase_of_not_mem {K A : Type} [DecidableEq K]
    (l : List (K × A)) (k : K) (h : ∀ p ∈ l, p.1 ≠ k) :
    assocErase l k = l := by
  induction l with
  | nil => rfl
  | cons p rest ih =>
      cases p with
      | mk k' a' =>
          simp only [assocErase]
          rw [if_neg (h (k', a') (by simp))]
          rw [ih (fun q hq => h q (by simp [hq]))]

theorem evictOverflow_eq_drop {K V : Type} (m : ℕ) (l : List (K × CacheItem V)) :
    evictOverflow m l = l.drop (l.length - m) := by
  induction l with
  | nil => rw [evictOverflow]; simp
  | cons p rest ih =>
      rw [evictOverflow]
      by_cases h : m < (p :: rest).length
      · rw [dif_pos h]
        simp only [List.tail_cons, List.length_cons]
        rw [ih]
        have : rest.length + 1 - m = (rest.length - m) + 1 := by
          simp at h; omega
        rw [this, List.drop_succ_cons]
      · rw [dif_neg h]
        simp only [List.length_cons]
        have : rest.length + 1 - m = 0 := by simp at h; omega
        rw [this, List.drop_zero]

theorem length_evictOverflow {K V : Type} (m : ℕ) (l : List (K × CacheItem V)) :
    (evictOverflow m l).length = min l.length m := by
  rw [evictOverflow_eq_drop, List.length_drop]; omega

/-- Structure of the cache right after a `set`: when capacity is at least 1,
the fresh entry sits at the most-recently-used end and everything in front of
it has a different key. -/
theorem set_cache_structure {K V : Type} [DecidableEq K]
    (c : LRUCache K V) (k : K) (v : V) (now ttl : ℚ) (hcap : 1 ≤ c.max_size) :
    ∃ E, (c.set k v now ttl).cache = E ++ [(k, ⟨v, now + ttl, 0⟩)] ∧
      ∀ p ∈ E, p.1 ≠ k := by
  set e : K × CacheItem V := (k, ⟨v, now + ttl, 0⟩) with he
  have hlen : (assocErase c.cache k ++ [e]).length = (assocErase c.cache k).length + 1 := by
    simp
  have hd : (assocErase c.cache k).length + 1 - c.max_size ≤ (assocErase c.cache k).length := by
    omega
  refine ⟨(assocErase c.cache k).drop ((assocErase c.cache k).length + 1 - c.max_size), ?_, ?_⟩
  · show evictOverflow c.max_size (assocErase c.cache k ++ [e]) = _
    rw [evictOverflow_eq_drop, hlen, List.drop_append_of_le_length hd]
  · intro p hp
    exact assocErase_keys c.cache k p (List.drop_subset _ _ hp)

/-- Folding `set` over fresh keys keeps, in order, the last `max_size` of the
inserted keys (older keys fall off the least-recently-used front). -/
theorem setMany_keys {K V : Type} [DecidableEq K] (now ttl : ℚ) :
    ∀ (kvs : List (K × V)) (c : LRUCache K V),
      (c.cache.map Prod.fst ++ kvs.map Prod.fst).Nodup →
      c.cache.length ≤ c.max_size →
      (c.setMany kvs now ttl).cache.map Prod.fst
        = (c.cache.map Prod.fst ++ kvs.map Prod.fst).drop
            (c.cache.length + kvs.length - c.max_size) := by
  intro kvs
  induction kvs with
  | nil =>
      intro c _ hlen
      have hz : c.cache.length + ([] : List (K × V)).length - c.max_size = 0 := by
        simp; omega
      rw [hz, List.drop_zero]
      simp [LRUCache.setMany]
  | cons kv rest ih =>
      intro c hnodup hlen
      obtain ⟨k, v⟩ := kv
      have hmap : ((k, v) :: rest).map (Prod.fst (α := K) (β := V)) = k :: rest.map Prod.fst := by
        simp
      rw [hmap] at hnodup
      have hknotin : k ∉ c.cache.map Prod.fst := by
        rw [List.nodup_append] at hnodup
        exact fun hmem => hnodup.2.2 hmem (by simp)
      have hkeysne : ∀ p ∈ c.cache, p.1 ≠ k := by
        intro p hp hpk
        exact hknotin (hpk ▸ List.mem_map_of_mem Prod.fst hp)
      have herase : assocErase c.cache k = c.cache := assocErase_of_not_mem _ _ hkeysne
      set c' : LRUCache K V := c.set k v now ttl with hc'
      set j : ℕ := c.cache.length + 1 - c.max_size with hj
      set e : K × CacheItem V := (k, { value := v, expire_time := now + ttl, hits := 0 }) with he
      have hcache' : c'.cache = (c.cache ++ [e]).drop j := by
        show evictOverflow c.max_size (assocErase c.cache k ++ [e]) = _
        rw [herase, evictOverflow_eq_drop]
        congr 1
        simp [hj]
      have hmax' : c'.max_size = c.max_size := rfl
      have hkeys' : c'.cache.map Prod.fst = (c.cache.map Prod.fst ++ [k]).drop j := by
        rw [hcache', List.map_drop]
        congr 1
        simp [he]
      have hlen' : c'.cache.length ≤ c'.max_size := by
        rw [hcache', List.length_drop, hmax']
        simp [hj]; omega
      have hjle : j ≤ (c.cache.map Prod.fst ++ [k]).length := by
        simp only [List.length_append, List.length_map, List.length_cons,
          List.length_nil, hj]
        omega
      have hnodup' : (c'.cache.map Prod.fst ++ rest.map Prod.fst).Nodup := by
        have hsub : (c'.cache.map Prod.fst ++ rest.map Prod.fst).Sublist
            ((c.cache.map Prod.fst ++ [k]) ++ rest.map Prod.fst) := by
          rw [hkeys']
          exact (List.drop_sublist _ _).append_right _
        refine hsub.nodup ?_
        rw [List.append_assoc]
        simpa using hnodup
      have hrec := ih c' hnodup' hlen'
      show (c'.setMany rest now ttl).cache.map Prod.fst = _
      rw [hrec, hkeys', hmax']
      rw [← List.drop_append_of_le_length hjle, List.drop_drop]
      have hlists : (c.cache.map Prod.fst ++ [k]) ++ rest.map Prod.fst
          = c.cache.map Prod.fst ++ ((k, v) :: rest).map Prod.fst := by
        simp
      rw [hlists]
      congr 1
      have hclen : c'.cache.length = c.cache.length + 1 - j := by
        rw [hcache', List.length_drop]
        simp
      rw [hclen]
      simp only [List.length_cons]
      omega

/-- Claim C6: `set(k, v, ttl)` followed immediately by `get(k)` returns `v`
(for a positive TTL, on a cache of capacity at least 1); once the TTL has
elapsed, `get(k)` returns absent and removes the expired entry (lazy expiry);
and `cleanup()` removes exactly the entries whose expiry has passed at its
invocation time. -/
theorem claim_C6 {K V : Type} [DecidableEq K] (c : LRUCache K V) (k : K) (v : V)
    (ttl now : ℚ) (hcap : 1 ≤ c.max_size) (httl : 0 < ttl) :
    (((c.set k v now ttl).get k now).1 = some v)
    ∧ (∀ later : ℚ, now + ttl ≤ later →
        (((c.set k v now ttl).get k later).1 = none)
        ∧ assocFind (((c.set k v now ttl).get k later).2).cache k = none)
    ∧ (∀ (c' : LRUCache K V) (t : ℚ) (p : K × CacheItem V),
        p ∈ (c'.cleanup t).cache ↔ p ∈ c'.cache ∧ t < p.2.expire_time) := by
  obtain ⟨E, hE, hkeys⟩ := set_cache_structure c k v now ttl hcap
  have hfind : assocFind (c.set k v now ttl).cache k = some ⟨v, now + ttl, 0⟩ := by
    rw [hE]; exact assocFind_append_right E k _ hkeys
  refine ⟨?_, ?_, ?_⟩
  · show ((c.set k v now ttl).get k now).1 = some v
    unfold LRUCache.get
    rw [hfind]
    simp only
    rw [if_pos (by linarith)]
  · intro later hlater
    have hexp : ¬ later < now + ttl := by linarith
    constructor
    · unfold LRUCache.get
      rw [hfind]
      simp only
      rw [if_neg hexp]
    · unfold LRUCache.get
      rw [hfind]
      simp only
      rw [if_neg hexp]
      exact assocFind_eq_none_of_keys_ne _ _ (assocErase_keys _ _)
  · intro c' t p
    unfold LRUCache.cleanup
    simp [List.mem_filter]

/-- Claim C7: after every `set` the cache holds at most `max_size` entries;
`set` inserts at the most-recently-used end; `get` on a live entry moves it to
the most-recently-used end (bumping its hit count) and this is the sole state
change; and inserting `max_size + 1` distinct keys into an empty cache evicts
exactly the first-inserted (least-recently-touched) key. -/
theorem claim_C7 {K V : Type} [DecidableEq K] :
    (∀ (c : LRUCache K V) (k : K) (v : V) (now ttl : ℚ),
      (c.set k v now ttl).cache.length ≤ c.max_size)
    ∧ (∀ (c : LRUCache K V) (k : K) (v : V) (now ttl : ℚ), 1 ≤ c.max_size →
      (c.set k v now ttl).cache.getLast? = some (k, ⟨v, now + ttl, 0⟩))
    ∧ (∀ (c : LRUCache K V) (k : K) (it : CacheItem V) (now : ℚ),
      assocFind c.cache k = some it → now < it.expire_time →
      ((c.get k now).1 = some it.value
        ∧ ((c.get k now).2).cache.getLast? = some (k, { it with hits := it.hits + 1 })))
    ∧ (∀ (m : ℕ) (kvs : List (K × V)) (now ttl : ℚ),
      (kvs.map Prod.fst).Nodup → kvs.length = m + 1 → 1 ≤ m →
      ((LRUCache.setMany ⟨m, []⟩ kvs now ttl).cache.map Prod.fst)
        = (kvs.map Prod.fst).drop 1) := by
  refine ⟨?_, ?_, ?_, ?_⟩
  · intro c k v now ttl
    show (evictOverflow _ _).length ≤ _
    rw [length_evictOverflow]; omega
  · intro c k v now ttl hcap
    obtain ⟨E, hE, _⟩ := set_cache_structure c k v now ttl hcap
    rw [hE, List.getLast?_concat]
  · intro c k it now hfind hlive
    unfold LRUCache.get
    rw [hfind]
    simp only
    rw [if_pos hlive]
    exact ⟨rfl, by simp [List.getLast?_concat]⟩
  · intro m kvs now ttl hnodup hlen hcap
    have h := setMany_keys (K := K) (V := V) now ttl kvs ⟨m, []⟩ (by simpa using hnodup)
      (by simp)
    simp only at h
    rw [h]
    congr 1
    simp [hlen]

theorem claim_C6_witness :
    (1 ≤ (2 : ℕ)) ∧ ((0 : ℚ) < 10) ∧
      (((LRUCache.set (K := ℕ) (V := ℕ) ⟨2, []⟩ 0 5 0 10).get 0 0).1 = some 5) :=
  ⟨by decide, by decide, (claim_C6 ⟨2, []⟩ 0 5 10 0 (by decide) (by decide)).1⟩

theorem claim_C7_witness :
    (([((0 : ℕ), (10 : ℕ)), (1, 11), (2, 12)].map Prod.fst).Nodup)
    ∧ ((LRUCache.setMany (K := ℕ) (V := ℕ) ⟨2, []⟩ [(0, 10), (1, 11), (2, 12)] 0 1).cache.map
          Prod.fst
        = ([((0 : ℕ), (10 : ℕ)), (1, 11), (2, 12)].map Prod.fst).drop 1) :=
  ⟨by decide,
    (claim_C7 (K := ℕ) (V := ℕ)).2.2.2 2 [(0, 10), (1, 11), (2, 12)] 0 1
      (by decide) (by decide) (by decide)⟩

/-- Claim C5: each call appends the current time stamp, prunes entries 60 or
more seconds old, and admits exactly when the pruned window — current request
included — has length at most the per-window maximum; with a limit of 3, four
calls within one second yield `[true, true, true, false]` and a call 61
seconds later is admitted again. -/
theorem claim_C5 :
    (∀ (max_requests : ℕ) (window : List ℚ) (now : ℚ),
      ((check_rate_limit max_requests window now).2
          = (window ++ [now]).filter (fun t => decide (now - t < 60)))
      ∧ ((check_rate_limit max_requests window now).1 = true
          ↔ (check_rate_limit max_requests window now).2.length ≤ max_requests)
      ∧ now ∈ (check_rate_limit max_requests window now).2)
    ∧ (rate_limit_run 3 [100, 100 + 1/4, 100 + 1/2, 100 + 3/4, 161 + 3/4]).1
        = [true, true, true, false, true] := by
  constructor
  · intro max_requests window now
    refine ⟨rfl, by simp [check_rate_limit], ?_⟩
    simp [check_rate_limit]
  · norm_num [rate_limit_run, check_rate_limit, List.filter]

/-- Claim C1 concerns `BatchProcessor.add_to_batch`.  What the code actually
does: on a flushing call the pending batch *is* swapped for a fresh empty list
before the processor runs, but the mutual-exclusion lock is **not** released
first — the `await processor(...)` happens inside the `async with self._lock`
block — and a non-flushing call awaits its future while still holding the
lock.  This theorem records the code's behaviour, refuting the claim's
"release the lock before invoking the processor / suspend without holding the
lock" parts (their formalisations `allOutsideLock ... = true` are false). -/
theorem claim_C1 :
    ((add_to_batch_events true).indexOf .swapBatch
      < (add_to_batch_events true).indexOf .invokeProcessor)
    ∧ .invokeProcessor ∈ add_to_batch_events true
    ∧ allUnderLock (add_to_batch_events true) .invokeProcessor = true
    ∧ allOutsideLock (add_to_batch_events true) .invokeProcessor = false
    ∧ .awaitFuture ∈ add_to_batch_events false
    ∧ allUnderLock (add_to_batch_events false) .awaitFuture = true
    ∧ allOutsideLock (add_to_batch_events false) .awaitFuture = false := by
  decide

/-- Counterexample to claim C2: a `BatchProcessor(batch_size=10,
max_wait_time=5)` constructed at time 0 receives its *first* submission at
time 100.  The code flushes at once (`100 - last_process_time = 100 ≥ 5`,
even though the item just opened the batch), while the claim's rule — clock
starts when the first item enters the empty pending batch — says no flush
(`pending length 1 < 10` and `now - batch_opened_at = 0 < 5`). -/
theorem claim_C2_counterexample :
    (add_to_batch (I := Unit) ⟨10, 5, [], 0⟩ () 100).1 = some [()]
    ∧ (spec_add_to_batch (I := Unit) ⟨10, 5, [], 0⟩ () 100).1 = none := by
  constructor
  · norm_num [add_to_batch]
  · norm_num [spec_add_to_batch]

/-- Claim C2, amended: a call to `add_to_batch` flushes exactly when, after
appending the item, the pending length is at least `batch_size` **or** the
time elapsed since `last_process_time` — the construction time or the time of
the most recent flush, not the time the first item entered the empty pending
batch — is at least `max_wait_time`.  A non-flushing call appends the item
and leaves `last_process_time` unchanged; a flushing call hands over the
whole appended batch, resets the pending batch to a fresh empty list, and
sets `last_process_time := now`. -/
theorem claim_C2_amended {I : Type} (s : BatchProcessorState I) (item : I) (now : ℚ) :
    ((add_to_batch s item now).1.isSome = true
      ↔ (s.batch_size ≤ s.current_batch.length + 1
          ∨ s.max_wait_time ≤ now - s.last_process_time))
    ∧ ((add_to_batch s item now).1 = none →
        (add_to_batch s item now).2.last_process_time = s.last_process_time
        ∧ (add_to_batch s item now).2.current_batch = s.current_batch ++ [item]
        ∧ (add_to_batch s item now).2.batch_size = s.batch_size
        ∧ (add_to_batch s item now).2.max_wait_time = s.max_wait_time)
    ∧ ((add_to_batch s item now).1.isSome = true →
        (add_to_batch s item now).1 = some (s.current_batch ++ [item])
        ∧ (add_to_batch s item now).2.last_process_time = now
        ∧ (add_to_batch s item now).2.current_batch = []) := by
  dsimp only [add_to_batch]
  by_cases hc : s.batch_size ≤ s.current_batch.length + 1
      ∨ s.max_wait_time ≤ now - s.last_process_time
  · rw [if_pos (by simpa using hc)]
    simpa using hc
  · rw [if_neg (by simpa using hc)]
    simpa using hc

theorem claim_C2_amended_witness :
    ((add_to_batch (I := Unit) ⟨10, 5, [], 0⟩ () 2).1 = none)
    ∧ (add_to_batch (I := Unit) ⟨10, 5, [], 0⟩ () 2).2.current_batch = [()] := by
  have hnone : (add_to_batch (I := Unit) ⟨10, 5, [], 0⟩ () 2).1 = none := by
    norm_num [add_to_batch]
  exact ⟨hnone, ((claim_C2_amended ⟨10, 5, [], 0⟩ () 2).2.1 hnone).2.1⟩

/-- Claim C3: if the processor raises during a flush, the error is re-raised,
every item of that batch holding a completion handle is rejected with that
same error and nothing else is resolved (no partial success); the pending
batch is not corrupted, because the flushing `add_to_batch` call had already
swapped in a fresh empty list before the processor ran; and a later, separate
batch processed by a succeeding call resolves every handle-holding item with
the result at its own index. -/
theorem claim_C3 {P R E : Type} (get_embeddings : List P → Except E (List R))
    (batch : List (BItem P)) (e : E)
    (herr : get_embeddings (batch.map BItem.payload) = .error e) :
    ((process_embedding_batch get_embeddings batch).1 = .error e)
    ∧ (∀ it ∈ batch, it.hasFuture = true →
        (it, FutureOutcome.set_exception e) ∈ (process_embedding_batch get_embeddings batch).2)
    ∧ (∀ o ∈ (process_embedding_batch get_embeddings batch).2,
        o.2 = FutureOutcome.set_exception e)
    ∧ (∀ {I : Type} (s : BatchProcessorState I) (item : I) (now : ℚ) (b : List I),
        (add_to_batch s item now).1 = some b →
        (add_to_batch s item now).2.current_batch = [])
    ∧ (∀ (ge2 : List P → Except E (List R)) (batch2 : List (BItem P)) (rs : List R),
        ge2 (batch2.map BItem.payload) = .ok rs →
        (process_embedding_batch ge2 batch2).1 = .ok rs
        ∧ ∀ p ∈ batch2.zip rs, p.1.hasFuture = true →
            (p.1, FutureOutcome.set_result p.2) ∈ (process_embedding_batch ge2 batch2).2) := by
  refine ⟨?_, ?_, ?_, ?_, ?_⟩
  · simp [process_embedding_batch, herr]
  · intro it hmem hfut
    simp only [process_embedding_batch, herr]
    exact List.mem_map_of_mem _ (List.mem_filter.mpr ⟨hmem, hfut⟩)
  · intro o ho
    simp only [process_embedding_batch, herr] at ho
    obtain ⟨it, _, rfl⟩ := List.mem_map.mp ho
    rfl
  · intro I s item now b h
    dsimp only [add_to_batch] at h ⊢
    by_cases hc : (decide (s.batch_size ≤ (s.current_batch ++ [item]).length)
        || decide (s.max_wait_time ≤ now - s.last_process_time)) = true
    · rw [if_pos hc]
    · rw [if_neg hc] at h
      exact Option.noConfusion h
  · intro ge2 batch2 rs hok
    constructor
    · simp [process_embedding_batch, hok]
    · intro p hmem hfut
      simp only [process_embedding_batch, hok]
      exact List.mem_map_of_mem _ (List.mem_filter.mpr ⟨hmem, hfut⟩)

theorem claim_C3_witness :
    ((fun _ : List ℕ => (Except.error 7 : Except ℕ (List ℕ)))
        ([(⟨0, true⟩ : BItem ℕ), ⟨1, false⟩].map BItem.payload) = Except.error 7)
    ∧ (process_embedding_batch (fun _ : List ℕ => (Except.error 7 : Except ℕ (List ℕ)))
        [(⟨0, true⟩ : BItem ℕ), ⟨1, false⟩]).1 = Except.error 7
    ∧ ((⟨0, true⟩ : BItem ℕ), FutureOutcome.set_exception (R := ℕ) 7)
        ∈ (process_embedding_batch (fun _ : List ℕ => (Except.error 7 : Except ℕ (List ℕ)))
            [(⟨0, true⟩ : BItem ℕ), ⟨1, false⟩]).2 :=
  ⟨rfl,
    (claim_C3 (fun _ : List ℕ => (Except.error 7 : Except ℕ (List ℕ)))
      [⟨0, true⟩, ⟨1, false⟩] 7 rfl).1,
    (claim_C3 (fun _ : List ℕ => (Except.error 7 : Except ℕ (List ℕ)))
      [⟨0, true⟩, ⟨1, false⟩] 7 rfl).2.1
      ⟨0, true⟩ (by simp) rfl⟩

/-- Claim C10: the response-cache lookup precedes input validation.  A
message whose normalised text has a live cached response is answered from the
cache — `validate_input` is never consulted — and a message with no cached
response that fails validation raises (`invalidInput`). -/
theorem claim_C10 (cache : LRUCache (List Char) ResponseData) (now : ℚ)
    (message : List Char) (context : Option (List Char)) (completion : List Char) :
    (∀ r : ResponseData, (cache.get (normalize_query message) now).1 = some r →
      process_message cache now message context completion = PMOutcome.cacheHit r)
    ∧ ((cache.get (normalize_query message) now).1 = none →
      validate_input message = false →
      process_message cache now message context completion = PMOutcome.invalidInput) := by
  constructor
  · intro r hr
    unfold process_message
    rw [hr]
  · intro hmiss hbad
    unfold process_message
    rw [hmiss, hbad]
    rfl

theorem claim_C10_witness :
    (((⟨1000, [("exec(x)".toList, ⟨⟨"cached".toList, 1, false, true⟩, 10, 0⟩)]⟩ :
          LRUCache (List Char) ResponseData).get
        (normalize_query "EXEC(x)".toList) 5).1
      = some ⟨"cached".toList, 1, false, true⟩)
    ∧ validate_input "EXEC(x)".toList = false
    ∧ process_message
        ⟨1000, [("exec(x)".toList, ⟨⟨"cached".toList, 1, false, true⟩, 10, 0⟩)]⟩
        5 "EXEC(x)".toList none []
      = PMOutcome.cacheHit ⟨"cached".toList, 1, false, true⟩
    ∧ (((⟨1000, []⟩ : LRUCache (List Char) ResponseData).get
        (normalize_query "EXEC(x)".toList) 5).1 = none)
    ∧ process_message (⟨1000, []⟩ : LRUCache (List Char) ResponseData)
        5 "EXEC(x)".toList none [] = PMOutcome.invalidInput := by
  have hget : (((⟨1000, [("exec(x)".toList, ⟨⟨"cached".toList, 1, false, true⟩, 10, 0⟩)]⟩ :
        LRUCache (List Char) ResponseData).get
      (normalize_query "EXEC(x)".toList) 5).1
    = some ⟨"cached".toList, 1, false, true⟩) := by decide
  have hbad : validate_input "EXEC(x)".toList = false := by decide
  have hmiss : (((⟨1000, []⟩ : LRUCache (List Char) ResponseData).get
      (normalize_query "EXEC(x)".toList) 5).1 = none) := by decide
  exact ⟨hget, hbad,
    (claim_C10 _ 5 "EXEC(x)".toList none []).1 _ hget,
    hmiss,
    (claim_C10 _ 5 "EXEC(x)".toList none []).2 hmiss hbad⟩

/-- `calculate_confidence` always lands in `[0, 1]`: the base confidence and
the length factor both do, and two-decimal rounding keeps the interval. -/
theorem calculate_confidence_mem_unit (resp : List Char) :
    0 ≤ calculate_confidence resp ∧ calculate_confidence resp ≤ 1 := by
  unfold calculate_confidence pyRound2
  set c : ℕ :=
    (uncertainty_markers.filter
      (fun m => isSubstring m (resp.map Char.toLower))).length with hc
  set b : ℚ := max 0 (1 - (c : ℚ) * (1 / 10)) with hb
  set f : ℚ := min 1 ((resp.length : ℚ) / 100) with hf
  have hb0 : 0 ≤ b := le_max_left _ _
  have hb1 : b ≤ 1 := by
    apply max_le (by norm_num)
    have : 0 ≤ (c : ℚ) * (1 / 10) := by positivity
    linarith
  have hf0 : 0 ≤ f := le_min (by norm_num) (by positivity)
  have hf1 : f ≤ 1 := min_le_left _ _
  have hp0 : 0 ≤ b * f := mul_nonneg hb0 hf0
  have hp1 : b * f ≤ 1 := mul_le_one₀ hb1 hf0 hf1
  have hr0 : (0 : ℤ) ≤ round (b * f * 100) := by
    rw [round_eq]
    rw [Int.le_floor]
    push_cast
    linarith
  have hr1 : round (b * f * 100) ≤ 100 := by
    rw [round_eq]
    have hle : (b * f * 100 + 1 / 2 : ℚ) ≤ 100 + 1 / 2 := by linarith
    calc ⌊(b * f * 100 + 1 / 2 : ℚ)⌋ ≤ ⌊(100 + 1 / 2 : ℚ)⌋ := Int.floor_le_floor hle
      _ = 100 := by norm_num
  constructor
  · apply div_nonneg _ (by norm_num : (0:ℚ) ≤ 100)
    exact_mod_cast hr0
  · rw [div_le_one (by norm_num : (0:ℚ) < 100)]
    exact_mod_cast hr1

/-- Counterexample to claim C4: on a cache-miss, valid message with non-empty
context, `process_message` returns confidence `0.9` no matter what the
response text is, while the hedge-word/length computation
(`calculate_confidence`) on the returned response `"possibly"` gives `0.07` —
the pipeline's confidence is *not* computed from hedge-word counting and
length normalisation over the response. -/
theorem claim_C4_counterexample :
    process_message (⟨1000, []⟩ : LRUCache (List Char) ResponseData) 0
        "hello".toList (some "ctx".toList) "possibly".toList
      = PMOutcome.completed ⟨"possibly".toList, 9 / 10, false, true⟩
    ∧ calculate_confidence "possibly".toList = 7 / 100
    ∧ ((9 : ℚ) / 10) ≠ 7 / 100 := by
  refine ⟨?_, ?_, by norm_num⟩
  · have hmiss : (((⟨1000, []⟩ : LRUCache (List Char) ResponseData).get
        (normalize_query "hello".toList) 0).1 = none) := by decide
    have hvalid : validate_input "hello".toList = true := by decide
    unfold process_message
    rw [hmiss, hvalid]
    have hctx : truthyCtx (some "ctx".toList) = true := by decide
    simp only [hctx, Bool.not_true, Bool.false_eq_true, if_false, if_true]
    have hnh : decide ((9 : ℚ) / 10 < 2 / 5) = false := by
      rw [decide_eq_false_iff_not]
      norm_num
    rw [hnh]
  · have hcount : (uncertainty_markers.filter
        (fun m => isSubstring m ("possibly".toList.map Char.toLower))).length = 1 := by
      decide
    have hlen : ("possibly".toList.length : ℚ) = 8 := by norm_num
    unfold calculate_confidence
    dsimp only
    rw [hcount, hlen]
    have hbase : max (0:ℚ) (1 - (1 : ℕ) * (1 / 10)) = 9 / 10 := by
      rw [max_eq_right] <;> norm_num
    have hfac : min (1:ℚ) (8 / 100) = 8 / 100 := by
      rw [min_eq_right] <;> norm_num
    rw [hbase, hfac]
    unfold pyRound2
    norm_num [round_eq]

/-- Claim C4, amended: for every processed (cache-miss, valid) message the
pipeline sets the response's confidence to the constant `0.9` when a
non-empty context was assembled and `0.5` otherwise (`chat_service.py` line
99); the hedge-word/length-normalisation computation exists as
`OpenAIService.calculate_confidence` and always yields a value in `[0, 1]`,
but `process_message` never invokes it. -/
theorem claim_C4_amended (cache : LRUCache (List Char) ResponseData) (now : ℚ)
    (message : List Char) (context : Option (List Char)) (completion : List Char)
    (hmiss : (cache.get (normalize_query message) now).1 = none)
    (hvalid : validate_input message = true) :
    (process_message cache now message context completion
      = PMOutcome.completed
          { response := completion
            confidence := if truthyCtx context then 9 / 10 else 1 / 2
            needs_human := false
            context_used := truthyCtx context })
    ∧ ∀ resp : List Char, 0 ≤ calculate_confidence resp ∧ calculate_confidence resp ≤ 1 := by
  constructor
  · unfold process_message
    rw [hmiss, hvalid]
    cases hctx : truthyCtx context with
    | false =>
        simp only [hctx, Bool.not_true, Bool.false_eq_true, if_false, if_true]
        have hnh : decide ((1 : ℚ) / 2 < 2 / 5) = false := by
          rw [decide_eq_false_iff_not]
          norm_num
        rw [hnh]
    | true =>
        simp only [hctx, Bool.not_true, Bool.false_eq_true, if_false, if_true]
        have hnh : decide ((9 : ℚ) / 10 < 2 / 5) = false := by
          rw [decide_eq_false_iff_not]
          norm_num
        rw [hnh]
  · exact calculate_confidence_mem_unit

theorem claim_C4_amended_witness :
    ((((⟨1000, []⟩ : LRUCache (List Char) ResponseData).get
        (normalize_query "hi there".toList) 0).1 = none)
    ∧ validate_input "hi there".toList = true)
    ∧ process_message (⟨1000, []⟩ : LRUCache (List Char) ResponseData) 0
        "hi there".toList none "fine".toList
      = PMOutcome.completed ⟨"fine".toList, 1 / 2, false, false⟩ := by
  have hmiss : (((⟨1000, []⟩ : LRUCache (List Char) ResponseData).get
      (normalize_query "hi there".toList) 0).1 = none) := by decide
  have hvalid : validate_input "hi there".toList = true := by decide
  exact ⟨⟨hmiss, hvalid⟩,
    (claim_C4_amended ⟨1000, []⟩ 0 "hi there".toList none "fine".toList hmiss hvalid).1⟩

theorem assocFind_eq_none_iff {K A : Type} [DecidableEq K]
    (l : List (K × A)) (k : K) :
    assocFind l k = none ↔ k ∉ l.map Prod.fst := by
  induction l with
  | nil => simp [assocFind]
  | cons p rest ih =>
      cases p with
      | mk k' a =>
          simp only [assocFind, List.map_cons, List.mem_cons]
          by_cases hk : k' = k
          · simp [hk]
          · rw [if_neg hk, ih]
            constructor
            · intro h hmem
              rcases hmem with h1 | h1
              · exact hk h1.symm
              · exact h h1
            · intro h
              exact fun hmem => h (Or.inr hmem)

theorem assocFind_mem {K A : Type} [DecidableEq K]
    {l : List (K × A)} {k : K} {a : A} (h : assocFind l k = some a) :
    (k, a) ∈ l := by
  induction l with
  | nil => simp [assocFind] at h
  | cons p rest ih =>
      cases p with
      | mk k' a' =>
          simp only [assocFind] at h
          by_cases hk : k' = k
          · rw [if_pos hk] at h
            subst hk
            cases h
            exact List.mem_cons_self _ _
          · rw [if_neg hk] at h
            exact List.mem_cons_of_mem _ (ih h)

theorem assocFind_of_mem_nodup {K A : Type} [DecidableEq K]
    {l : List (K × A)} (hnd : (l.map Prod.fst).Nodup) {p : K × A} (hp : p ∈ l) :
    assocFind l p.1 = some p.2 := by
  induction l with
  | nil => simp at hp
  | cons q rest ih =>
      cases q with
      | mk k' a' =>
          simp only [List.map_cons, List.nodup_cons] at hnd
          rcases List.mem_cons.mp hp with h1 | h1
          · subst h1
            simp [assocFind]
          · have hne : k' ≠ p.1 := by
              intro he
              exact hnd.1 (he ▸ List.mem_map_of_mem Prod.fst h1)
            simp only [assocFind]
            rw [if_neg hne]
            exact ih hnd.2 h1

theorem assocReplace_keys_map {K A : Type} [DecidableEq K]
    (l : List (K × A)) (k : K) (b : A) :
    (assocReplace l k b).map Prod.fst = l.map Prod.fst := by
  induction l with
  | nil => rfl
  | cons p rest ih =>
      cases p with
      | mk k' a =>
          simp only [assocReplace]
          by_cases hk : k' = k
          · rw [if_pos hk]
            simpa using ih
          · rw [if_neg hk]
            simpa using ih

theorem mem_assocReplace {K A : Type} [DecidableEq K]
    {l : List (K × A)} {k : K} {b : A} {p : K × A}
    (hp : p ∈ assocReplace l k b) : p = (k, b) ∨ (p ∈ l ∧ p.1 ≠ k) := by
  induction l with
  | nil => simp [assocReplace] at hp
  | cons q rest ih =>
      cases q with
      | mk k' a =>
          simp only [assocReplace] at hp
          by_cases hk : k' = k
          · rw [if_pos hk] at hp
            rcases List.mem_cons.mp hp with h1 | h1
            · subst hk
              exact Or.inl h1
            · rcases ih h1 with h2 | h2
              · exact Or.inl h2
              · exact Or.inr ⟨List.mem_cons_of_mem _ h2.1, h2.2⟩
          · rw [if_neg hk] at hp
            rcases List.mem_cons.mp hp with h1 | h1
            · subst h1
              exact Or.inr ⟨List.mem_cons_self _ _, hk⟩
            · rcases ih h1 with h2 | h2
              · exact Or.inl h2
              · exact Or.inr ⟨List.mem_cons_of_mem _ h2.1, h2.2⟩

theorem mem_assocReplace_of_ne {K A : Type} [DecidableEq K]
    {l : List (K × A)} {k : K} {b : A} {p : K × A}
    (hp : p ∈ l) (hne : p.1 ≠ k) : p ∈ assocReplace l k b := by
  induction l with
  | nil => simp at hp
  | cons q rest ih =>
      cases q with
      | mk k' a =>
          simp only [assocReplace]
          rcases List.mem_cons.mp hp with h1 | h1
          · subst h1
            rw [if_neg (by simpa using hne)]
            exact List.mem_cons_self _ _
          · by_cases hk : k' = k
            · rw [if_pos hk]
              exact List.mem_cons_of_mem _ (ih h1)
            · rw [if_neg hk]
              exact List.mem_cons_of_mem _ (ih h1)

theorem self_mem_assocReplace {K A : Type} [DecidableEq K]
    {l : List (K × A)} {k : K} {b : A} {p : K × A}
    (hp : p ∈ l) (hk : p.1 = k) : (k, b) ∈ assocReplace l k b := by
  induction l with
  | nil => simp at hp
  | cons q rest ih =>
      cases q with
      | mk k' a =>
          simp only [assocReplace]
          rcases List.mem_cons.mp hp with h1 | h1
          · have hke : k' = k := by rw [← hk, h1]
            subst hke
            rw [if_pos rfl]
            exact List.mem_cons_self _ _
          · by_cases hk' : k' = k
            · subst hk'
              rw [if_pos rfl]
              exact List.mem_cons_self _ _
            · rw [if_neg hk']
              exact List.mem_cons_of_mem _ (ih h1)

/-- Invariant of the dedupe/filter fold: every stored hit clears the
threshold and sits under its own fingerprint; fingerprints are pairwise
distinct; existing entries only ever get (weakly) better scores; and every
processed hit above the threshold is dominated by the entry under its
fingerprint. -/
theorem dedupe_fold_inv (fp : List Char → ℤ) (threshold : ℚ) :
    ∀ (docs : List Doc) (acc : List (ℤ × Doc)),
      (∀ p ∈ acc, threshold < p.2.score ∧ doc_id fp p.2 = p.1) →
      ((acc.map Prod.fst).Nodup) →
      (∀ p ∈ docs.foldl (dedupe_step fp threshold) acc,
          threshold < p.2.score ∧ doc_id fp p.2 = p.1)
      ∧ (((docs.foldl (dedupe_step fp threshold) acc).map Prod.fst).Nodup)
      ∧ (∀ q ∈ acc, ∃ p ∈ docs.foldl (dedupe_step fp threshold) acc,
          p.1 = q.1 ∧ q.2.score ≤ p.2.score)
      ∧ (∀ d ∈ docs, threshold < d.score →
          ∃ p ∈ docs.foldl (dedupe_step fp threshold) acc,
            p.1 = doc_id fp d ∧ d.score ≤ p.2.score) := by
  intro docs
  induction docs with
  | nil =>
      intro acc hinv hnd
      refine ⟨hinv, hnd, ?_, by simp⟩
      intro q hq
      exact ⟨q, hq, rfl, le_refl _⟩
  | cons d rest ih =>
      intro acc hinv hnd
      by_cases hθ : threshold < d.score
      · have hstep : dedupe_step fp threshold acc d =
            match assocFind acc (doc_id fp d) with
            | none => acc ++ [(doc_id fp d, d)]
            | some old =>
                if decide (old.score < d.score) then
                  assocReplace acc (doc_id fp d) d
                else acc := by
          unfold dedupe_step
          rw [if_pos (by simpa using hθ)]
        have hfold : (d :: rest).foldl (dedupe_step fp threshold) acc
            = rest.foldl (dedupe_step fp threshold) (dedupe_step fp threshold acc d) := rfl
        rcases hfind : assocFind acc (doc_id fp d) with _ | old
        · -- fresh fingerprint: append at the end
          have hacc' : dedupe_step fp threshold acc d = acc ++ [(doc_id fp d, d)] := by
            rw [hstep, hfind]
          have hinv' : ∀ p ∈ acc ++ [(doc_id fp d, d)],
              threshold < p.2.score ∧ doc_id fp p.2 = p.1 := by
            intro p hp
            rcases List.mem_append.mp hp with h1 | h1
            · exact hinv p h1
            · rcases List.mem_singleton.mp h1 with rfl
              exact ⟨hθ, rfl⟩
          have hnd' : (((acc ++ [(doc_id fp d, d)]).map Prod.fst).Nodup) := by
            rw [List.map_append]
            rw [List.nodup_append]
            refine ⟨hnd, by simp, ?_⟩
            intro x hx
            simp only [List.map_cons, List.map_nil, List.mem_cons, List.not_mem_nil,
              or_false]
            intro he
            subst he
            exact ((assocFind_eq_none_iff acc (doc_id fp d)).mp hfind) hx
          obtain ⟨r1, r2, r3, r4⟩ := ih (acc ++ [(doc_id fp d, d)]) hinv' hnd'
          rw [hfold, hacc']
          refine ⟨r1, r2, ?_, ?_⟩
          · intro q hq
            exact r3 q (List.mem_append_left _ hq)
          · intro e he hescore
            rcases List.mem_cons.mp he with rfl | h1
            · exact r3 (doc_id fp e, e) (List.mem_append_right _ (by simp)) |>.imp
                (fun p hp => ⟨hp.1, hp.2.1, hp.2.2⟩)
            · exact r4 e h1 hescore
        · -- collision: keep the better score
          by_cases hlt : old.score < d.score
          · have hacc' : dedupe_step fp threshold acc d
                = assocReplace acc (doc_id fp d) d := by
              rw [hstep]
              simp only [hfind]
              show (if decide (old.score < d.score) then
                  assocReplace acc (doc_id fp d) d else acc)
                = assocReplace acc (doc_id fp d) d
              rw [if_pos (by simpa using hlt)]
            have hinv' : ∀ p ∈ assocReplace acc (doc_id fp d) d,
                threshold < p.2.score ∧ doc_id fp p.2 = p.1 := by
              intro p hp
              rcases mem_assocReplace hp with rfl | h1
              · exact ⟨hθ, rfl⟩
              · exact hinv p h1.1
            have hnd' : (((assocReplace acc (doc_id fp d) d).map Prod.fst).Nodup) := by
              rw [assocReplace_keys_map]
              exact hnd
            obtain ⟨r1, r2, r3, r4⟩ := ih (assocReplace acc (doc_id fp d) d) hinv' hnd'
            rw [hfold, hacc']
            refine ⟨r1, r2, ?_, ?_⟩
            · intro q hq
              by_cases hqk : q.1 = doc_id fp d
              · -- q is the replaced entry: the new document dominates it
                have hq_old : q.2 = old := by
                  have h1 := assocFind_of_mem_nodup hnd hq
                  rw [hqk] at h1
                  rw [hfind] at h1
                  exact (Option.some_injective _ h1).symm
                obtain ⟨p, hp, hpk, hps⟩ :=
                  r3 (doc_id fp d, d) (self_mem_assocReplace hq hqk)
                exact ⟨p, hp, by rw [hpk, hqk], by
                  rw [hq_old]
                  exact le_trans (le_of_lt hlt) hps⟩
              · obtain ⟨p, hp, hpk, hps⟩ :=
                  r3 q (mem_assocReplace_of_ne hq hqk)
                exact ⟨p, hp, hpk, hps⟩
            · intro e he hescore
              rcases List.mem_cons.mp he with rfl | h1
              · obtain ⟨p, hp, hpk, hps⟩ :=
                  r3 (doc_id fp e, e)
                    (self_mem_assocReplace (assocFind_mem hfind) rfl)
                exact ⟨p, hp, hpk, hps⟩
              · exact r4 e h1 hescore
          · have hacc' : dedupe_step fp threshold acc d = acc := by
              rw [hstep]
              simp only [hfind]
              show (if decide (old.score < d.score) then
                  assocReplace acc (doc_id fp d) d else acc) = acc
              rw [if_neg (by simpa using hlt)]
            obtain ⟨r1, r2, r3, r4⟩ := ih acc hinv hnd
            rw [hfold, hacc']
            refine ⟨r1, r2, r3, ?_⟩
            intro e he hescore
            rcases List.mem_cons.mp he with rfl | h1
            · obtain ⟨p, hp, hpk, hps⟩ := r3 (doc_id fp e, old) (assocFind_mem hfind)
              exact ⟨p, hp, hpk, le_trans (le_of_not_lt hlt) hps⟩
            · exact r4 e h1 hescore
      · have hacc' : dedupe_step fp threshold acc d = acc := by
          unfold dedupe_step
          rw [if_neg (by simpa using hθ)]
        have hfold : (d :: rest).foldl (dedupe_step fp threshold) acc
            = rest.foldl (dedupe_step fp threshold) (dedupe_step fp threshold acc d) := rfl
        obtain ⟨r1, r2, r3, r4⟩ := ih acc hinv hnd
        rw [hfold, hacc']
        refine ⟨r1, r2, r3, ?_⟩
        intro e he hescore
        rcases List.mem_cons.mp he with rfl | h1
        · exact absurd hescore hθ
        · exact r4 e h1 hescore

/-- Claim C9: in the dedupe-and-rank stage every survivor's score strictly
exceeds the threshold (default 0.25 — anything not above it is discarded);
surviving fingerprints are pairwise distinct and each survivor is stored
under its own fingerprint; every hit above the threshold is represented by a
same-fingerprint survivor with at least its score; and for two hits with the
same fingerprint and scores 0.4 / 0.8 (either arrival order) exactly the
0.8 hit survives. -/
theorem claim_C9 (fp : List Char → ℤ) (threshold : ℚ) (docs : List Doc) :
    (∀ d ∈ filtered_docs fp threshold docs, threshold < d.score)
    ∧ ((dedupe_filter fp threshold docs).map Prod.fst).Nodup
    ∧ (∀ p ∈ dedupe_filter fp threshold docs, doc_id fp p.2 = p.1)
    ∧ (∀ d ∈ docs, threshold < d.score →
        ∃ d' ∈ filtered_docs fp threshold docs,
          doc_id fp d' = doc_id fp d ∧ d.score ≤ d'.score)
    ∧ filtered_docs fp (1 / 4)
        [⟨"ta".toList, 2 / 5, [], some 7, 0⟩, ⟨"tb".toList, 4 / 5, [], some 7, 0⟩]
        = [⟨"tb".toList, 4 / 5, [], some 7, 0⟩]
    ∧ filtered_docs fp (1 / 4)
        [⟨"tb".toList, 4 / 5, [], some 7, 0⟩, ⟨"ta".toList, 2 / 5, [], some 7, 0⟩]
        = [⟨"tb".toList, 4 / 5, [], some 7, 0⟩] := by
  obtain ⟨r1, r2, r3, r4⟩ :=
    dedupe_fold_inv fp threshold docs [] (by simp) (by simp)
  have hperm : (filtered_docs fp threshold docs).Perm
      ((dedupe_filter fp threshold docs).map Prod.snd) :=
    List.mergeSort_perm _ _
  refine ⟨?_, r2, fun p hp => (r1 p hp).2, ?_, ?_, ?_⟩
  · intro d hd
    have hmem : d ∈ (dedupe_filter fp threshold docs).map Prod.snd :=
      hperm.mem_iff.mp hd
    obtain ⟨p, hp, rfl⟩ := List.mem_map.mp hmem
    exact (r1 p hp).1
  · intro d hd hscore
    obtain ⟨p, hp, hpk, hps⟩ := r4 d hd hscore
    refine ⟨p.2, ?_, ?_, hps⟩
    · exact hperm.mem_iff.mpr (List.mem_map_of_mem Prod.snd hp)
    · rw [(r1 p hp).2, hpk]
  · norm_num [filtered_docs, dedupe_filter, dedupe_step, doc_id, assocFind,
      assocReplace, List.foldl]
  · norm_num [filtered_docs, dedupe_filter, dedupe_step, doc_id, assocFind,
      assocReplace, List.foldl]

theorem claim_C9_witness :
    ((1 : ℚ) / 4 < 2 / 5)
    ∧ (⟨"ta".toList, 2 / 5, [], some 7, 0⟩ : Doc)
        ∈ [(⟨"ta".toList, 2 / 5, [], some 7, 0⟩ : Doc), ⟨"tb".toList, 4 / 5, [], some 7, 0⟩]
    ∧ ∃ d' ∈ filtered_docs (fun _ => 0) (1 / 4)
        [(⟨"ta".toList, 2 / 5, [], some 7, 0⟩ : Doc), ⟨"tb".toList, 4 / 5, [], some 7, 0⟩],
        doc_id (fun _ => 0) d' = doc_id (fun _ => 0) ⟨"ta".toList, 2 / 5, [], some 7, 0⟩
        ∧ (2 : ℚ) / 5 ≤ d'.score := by
  refine ⟨by norm_num, by simp, ?_⟩
  exact (claim_C9 (fun _ => 0) (1 / 4)
      [⟨"ta".toList, 2 / 5, [], some 7, 0⟩, ⟨"tb".toList, 4 / 5, [], some 7, 0⟩]).2.2.2.1
    ⟨"ta".toList, 2 / 5, [], some 7, 0⟩ (by simp) (by norm_num)

theorem sumEst_append (parts : List (List Char)) (p : List Char) :
    sumEst (parts ++ [p]) = sumEst parts + p.length / 4 := by
  simp [sumEst]

theorem packLoop_cons_skip (m : ℕ) (d : Doc) (rest : List Doc)
    (parts : List (List Char)) (total : ℕ)
    (h : ((pyStrip d.text).isEmpty || decide ((pyStrip d.text).length < 50)) = true) :
    packLoop m (d :: rest) parts total = packLoop m rest parts total := by
  simp only [packLoop]
  rw [if_pos h]

theorem packLoop_cons_fit (m : ℕ) (d : Doc) (rest : List Doc)
    (parts : List (List Char)) (total : ℕ)
    (h1 : ((pyStrip d.text).isEmpty || decide ((pyStrip d.text).length < 50)) = false)
    (h2 : decide (m < total + (pyStrip d.text).length / 4) = false) :
    packLoop m (d :: rest) parts total
      = packLoop m rest (parts ++ [pyStrip d.text])
          (total + (pyStrip d.text).length / 4) := by
  simp only [packLoop]
  rw [if_neg (by simp [h1]), if_neg (by simp [h2])]

theorem packLoop_cons_break (m : ℕ) (d : Doc) (rest : List Doc)
    (parts : List (List Char)) (total : ℕ)
    (h1 : ((pyStrip d.text).isEmpty || decide ((pyStrip d.text).length < 50)) = false)
    (h2 : decide (m < total + (pyStrip d.text).length / 4) = true)
    (h3 : (decide ((7 : ℚ) / 10 < d.score)
        && decide ((total : ℚ) < (m : ℚ) * (8 / 10))) = false) :
    packLoop m (d :: rest) parts total = (parts, total) := by
  simp only [packLoop]
  rw [if_neg (by simp [h1]), if_pos h2, if_neg (by simp [h3])]

theorem packLoop_cons_truncate (m : ℕ) (d : Doc) (rest : List Doc)
    (parts : List (List Char)) (total : ℕ)
    (h1 : ((pyStrip d.text).isEmpty || decide ((pyStrip d.text).length < 50)) = false)
    (h2 : decide (m < total + (pyStrip d.text).length / 4) = true)
    (h3 : (decide ((7 : ℚ) / 10 < d.score)
        && decide ((total : ℚ) < (m : ℚ) * (8 / 10))) = true) :
    packLoop m (d :: rest) parts total
      = (parts ++ [highRelPrefix ++
            (pyTake (((m : ℤ) - (total : ℤ) - 100) * 4) (pyStrip d.text)
              ++ "...".toList)],
          total + (pyTake (((m : ℤ) - (total : ℤ) - 100) * 4) (pyStrip d.text)
              ++ "...".toList).length / 4) := by
  simp only [packLoop]
  rw [if_neg (by simp [h1]), if_pos h2, if_pos h3]

/-- The packing loop never exceeds the budget once the budget is at least 500
tokens: in the truncation branch the reserve
`max_tokens - total_tokens - 100` is then positive, so the truncated text
fits under `max_tokens - 100` and even with the `"[High Relevance] "` prefix
the emitted parts' estimated token sum stays at most `max_tokens - 95`. -/
theorem packLoop_le (m : ℕ) (hm : 500 ≤ m) :
    ∀ (docs : List Doc) (parts : List (List Char)) (total : ℕ),
      sumEst parts = total → total ≤ m →
      (packLoop m docs parts total).2 ≤ m
      ∧ sumEst (packLoop m docs parts total).1 ≤ m := by
  intro docs
  induction docs with
  | nil =>
      intro parts total hse htot
      exact ⟨htot, by simpa [packLoop, hse] using htot⟩
  | cons d rest ih =>
      intro parts total hse htot
      by_cases h1 : ((pyStrip d.text).isEmpty
          || decide ((pyStrip d.text).length < 50)) = true
      · rw [packLoop_cons_skip m d rest parts total h1]
        exact ih parts total hse htot
      · rw [Bool.not_eq_true] at h1
        by_cases h2 : decide (m < total + (pyStrip d.text).length / 4) = true
        · by_cases h3 : (decide ((7 : ℚ) / 10 < d.score)
              && decide ((total : ℚ) < (m : ℚ) * (8 / 10))) = true
          · rw [packLoop_cons_truncate m d rest parts total h1 h2 h3]
            have hbud : (total : ℚ) < (m : ℚ) * (8 / 10) := by
              have := (Bool.and_eq_true _ _).mp h3 |>.2
              exact of_decide_eq_true this
            have hnat : 10 * total < 8 * m := by
              have h10 : (10 * total : ℚ) < 8 * m := by linarith
              exact_mod_cast h10
            have hroom : total + 101 ≤ m := by omega
            set T : List Char :=
              pyTake (((m : ℤ) - (total : ℤ) - 100) * 4) (pyStrip d.text)
                ++ "...".toList with hT
            have hTlen : T.length ≤ 4 * (m - total - 100) + 3 := by
              rw [hT, List.length_append]
              have hdots : ("...".toList).length = 3 := rfl
              rw [hdots]
              have htake : (pyTake (((m : ℤ) - (total : ℤ) - 100) * 4)
                  (pyStrip d.text)).length ≤ 4 * (m - total - 100) := by
                unfold pyTake
                rw [if_pos (by omega : (0 : ℤ) ≤ ((m : ℤ) - (total : ℤ) - 100) * 4)]
                rw [List.length_take]
                have : ((((m : ℤ) - (total : ℤ) - 100) * 4).toNat)
                    = 4 * (m - total - 100) := by omega
                omega
              omega
            constructor
            · simp only
              omega
            · simp only
              rw [sumEst_append, hse]
              have hplen : (highRelPrefix ++ T).length = 17 + T.length := by
                rw [List.length_append]
                rfl
              rw [hplen]
              omega
          · rw [packLoop_cons_break m d rest parts total h1 h2
                (by simpa using h3)]
            exact ⟨htot, hse ▸ htot⟩
        · rw [packLoop_cons_fit m d rest parts total h1 (by simpa using h2)]
          have hfits : total + (pyStrip d.text).length / 4 ≤ m := by
            have := of_decide_eq_false (by simpa using h2 :
              decide (m < total + (pyStrip d.text).length / 4) = false)
            omega
          exact ih (parts ++ [pyStrip d.text]) (total + (pyStrip d.text).length / 4)
            (by rw [sumEst_append, hse]) hfits

theorem pyStrip_replicate (n : ℕ) (c : Char) (h : isPySpace c = false) :
    pyStrip (List.replicate n c) = List.replicate n c := by
  have hd : ∀ m : ℕ, (List.replicate m c).dropWhile isPySpace = List.replicate m c := by
    intro m
    cases m with
    | zero => rfl
    | succ k =>
        rw [List.replicate_succ, List.dropWhile_cons]
        simp [h]
  unfold pyStrip
  rw [hd, List.reverse_replicate, hd, List.reverse_replicate]

theorem boost_nil_message (d : Doc) :
    boost [] d = { d with priority_score := d.score } := rfl

theorem filter_not_mem_self (l : List Doc) :
    l.filter (fun d => decide (d ∉ l)) = [] := by
  rw [List.filter_eq_nil_iff]
  intro a ha
  simp [ha]

theorem replicate_isEmpty_false (n : ℕ) (c : Char) (h : 0 < n) :
    (List.replicate n c).isEmpty = false := by
  rw [List.isEmpty_eq_false]
  intro he
  have hlen := congrArg List.length he
  rw [List.length_replicate] at hlen
  simp at hlen
  omega

/-- A singleton or all-distinct-product list passes the diversity stage
unchanged and the second pass adds nothing, so `prioritize_documents`
reduces to boost-then-sort for such inputs. -/
theorem prioritize_single (d : Doc) :
    prioritize_documents [d] [] = [{ d with priority_score := d.score }] := by
  unfold prioritize_documents
  dsimp only
  rw [show List.map (boost (List.map Char.toLower [])) [d]
      = [{ d with priority_score := d.score }] by
    simp [boost_nil_message]]
  rw [List.mergeSort_singleton]
  rw [show diversityFirstPass [{ d with priority_score := d.score }] []
      = [{ d with priority_score := d.score }] by
    unfold diversityFirstPass
    rw [if_neg (List.not_mem_nil _)]
    rfl]
  rw [filter_not_mem_self]
  simp

/-- Counterexample to claim C8: under a 50-token budget, the one 404-character
high-relevance document drives the truncation branch with a *negative*
remaining allowance (`50 - 0 - 100 = -50`), Python's negative slice
`text[:-200]` keeps 204 of the 404 characters, and the builder emits a part
whose token estimate (51 counted, 56 including the `"[High Relevance] "`
prefix) exceeds the 50-token budget — `consumed_tokens <= max_tokens` is
violated, and the truncated part was appended even though the
`consumed + candidate <= max_tokens` check had failed. -/
theorem claim_C8_counterexample :
    build_token_managed_context [overflow_doc] 50 []
      = ([highRelPrefix ++ (List.replicate 204 'a' ++ "...".toList)], 51)
    ∧ ¬ ((build_token_managed_context [overflow_doc] 50 []).2 ≤ 50)
    ∧ ¬ (sumEst (build_token_managed_context [overflow_doc] 50 []).1 ≤ 50) := by
  have hstrip : pyStrip overflow_boosted.text = List.replicate 404 'a' := by
    show pyStrip (List.replicate 404 'a') = _
    exact pyStrip_replicate 404 'a' (by decide)
  have h1 : ((pyStrip overflow_boosted.text).isEmpty
      || decide ((pyStrip overflow_boosted.text).length < 50)) = false := by
    rw [hstrip, replicate_isEmpty_false 404 'a' (by norm_num), List.length_replicate]
    simp
  have h2 : decide (50 < 0 + (pyStrip overflow_boosted.text).length / 4) = true := by
    rw [hstrip, List.length_replicate]
    simp
  have h3 : (decide ((7 : ℚ) / 10 < overflow_boosted.score)
      && decide (((0 : ℕ) : ℚ) < ((50 : ℕ) : ℚ) * (8 / 10))) = true := by
    have ha : decide ((7 : ℚ) / 10 < overflow_boosted.score) = true := by
      show decide ((7 : ℚ) / 10 < (1 : ℚ)) = true
      rw [decide_eq_true_eq]
      norm_num
    have hb : decide (((0 : ℕ) : ℚ) < ((50 : ℕ) : ℚ) * (8 / 10)) = true := by
      rw [decide_eq_true_eq]
      push_cast
      norm_num
    rw [ha, hb]
    rfl
  have hbuild : build_token_managed_context [overflow_doc] 50 []
      = ([highRelPrefix ++ (List.replicate 204 'a' ++ "...".toList)], 51) := by
    unfold build_token_managed_context
    rw [show prioritize_documents [overflow_doc] [] = [overflow_boosted] by
      rw [prioritize_single]
      rfl]
    rw [packLoop_cons_truncate 50 overflow_boosted [] [] 0 h1 h2 h3]
    have htk : pyTake ((((50 : ℕ) : ℤ) - ((0 : ℕ) : ℤ) - 100) * 4)
        (pyStrip overflow_boosted.text) = List.replicate 204 'a' := by
      rw [hstrip]
      unfold pyTake
      rw [if_neg (by norm_num)]
      rw [List.length_replicate]
      rw [show ((((50 : ℕ) : ℤ) - ((0 : ℕ) : ℤ) - 100) * 4).natAbs = 200 by norm_num]
      rw [List.take_replicate]
      norm_num
    rw [htk]
    rw [List.nil_append]
    have hL : (List.replicate 204 'a' ++ "...".toList).length = 207 := by
      rw [List.length_append, List.length_replicate]
      rfl
    rw [hL]
  refine ⟨hbuild, ?_, ?_⟩
  · rw [hbuild]
    norm_num
  · rw [hbuild]
    have hS : sumEst [highRelPrefix ++ (List.replicate 204 'a' ++ "...".toList)]
        = 56 := by
      unfold sumEst
      rw [List.map_cons, List.map_nil, List.length_append, List.length_append,
        List.length_replicate]
      rw [show highRelPrefix.length = 17 from rfl]
      rw [show ("...".toList).length = 3 from rfl]
      rfl
    rw [hS]
    norm_num

theorem prioritize_pack_docs :
    prioritize_documents pack_docs [] = pack_docs_boosted := by
  unfold prioritize_documents
  dsimp only
  rw [show pack_docs.map (boost (List.map Char.toLower [])) = pack_docs_boosted
    from rfl]
  rw [List.mergeSort_of_sorted (by
    unfold pack_docs_boosted
    refine List.Pairwise.cons ?_ (List.Pairwise.cons ?_ (List.pairwise_singleton _ _))
    · intro b hb
      rcases List.mem_cons.mp hb with rfl | hb
      · decide
      · rcases List.mem_singleton.mp hb with rfl
        decide
    · intro b hb
      rcases List.mem_singleton.mp hb with rfl
      decide)]
  rw [show diversityFirstPass pack_docs_boosted [] = pack_docs_boosted by
    unfold pack_docs_boosted
    simp only [diversityFirstPass]
    rw [if_neg (by decide), if_neg (by decide), if_neg (by decide)]]
  rw [filter_not_mem_self]
  simp

/-- Claim C8, amended: the emitted context never exceeds the token budget
*provided the budget is at least 500 tokens* (the pipeline's own call uses
6000): both the tracked `consumed_tokens` and the emitted parts' estimated
token sum stay at most `max_tokens`.  (For budgets under 500 the truncation
branch can overshoot — see the counterexample — because the reserve
`max_tokens - consumed - 100` can go negative.)  Packing three candidates of
estimated sizes `[1000, 1000, 1000]` under a 2500-token budget emits exactly
the first two in full, none of the third, with `consumed_tokens = 2000 ≤
2500`. -/
theorem claim_C8_amended :
    (∀ (docs : List Doc) (message : List Char) (max_tokens : ℕ),
      500 ≤ max_tokens →
      (build_token_managed_context docs max_tokens message).2 ≤ max_tokens
      ∧ sumEst (build_token_managed_context docs max_tokens message).1 ≤ max_tokens)
    ∧ build_token_managed_context pack_docs 2500 []
        = ([List.replicate 4000 'a', List.replicate 4000 'a'], 2000) := by
  have hstrip : pyStrip (List.replicate 4000 'a') = List.replicate 4000 'a' :=
    pyStrip_replicate 4000 'a' (by decide)
  constructor
  · intro docs message m hm
    unfold build_token_managed_context
    exact packLoop_le m hm _ [] 0 rfl (by omega)
  · unfold build_token_managed_context
    rw [prioritize_pack_docs]
    unfold pack_docs_boosted
    have hc1 : ((pyStrip (⟨List.replicate 4000 'a', 1, "f1".toList, none, 1⟩ :
        Doc).text).isEmpty
        || decide ((pyStrip (⟨List.replicate 4000 'a', 1, "f1".toList, none,
            1⟩ : Doc).text).length < 50)) = false := by
      show ((pyStrip (List.replicate 4000 'a')).isEmpty
        || decide ((pyStrip (List.replicate 4000 'a')).length < 50)) = false
      rw [hstrip, replicate_isEmpty_false 4000 'a' (by norm_num),
        List.length_replicate]
      simp
    have hc2 : ((pyStrip (⟨List.replicate 4000 'a', 1, "f2".toList, none, 1⟩ :
        Doc).text).isEmpty
        || decide ((pyStrip (⟨List.replicate 4000 'a', 1, "f2".toList, none,
            1⟩ : Doc).text).length < 50)) = false := hc1
    have hc3 : ((pyStrip (⟨List.replicate 4000 'a', 1, "f3".toList, none, 1⟩ :
        Doc).text).isEmpty
        || decide ((pyStrip (⟨List.replicate 4000 'a', 1, "f3".toList, none,
            1⟩ : Doc).text).length < 50)) = false := hc1
    have hlen : ∀ fn : List Char,
        (pyStrip (⟨List.replicate 4000 'a', 1, fn, none, 1⟩ : Doc).text).length
          = 4000 := by
      intro fn
      show (pyStrip (List.replicate 4000 'a')).length = 4000
      rw [hstrip, List.length_replicate]
    rw [packLoop_cons_fit 2500 _ _ [] 0 hc1 (by rw [hlen]; decide)]
    rw [show (0 + (pyStrip (⟨List.replicate 4000 'a', 1, "f1".toList, none,
        1⟩ : Doc).text).length / 4) = 1000 by rw [hlen]]
    rw [packLoop_cons_fit 2500 _ _ _ 1000 hc2 (by rw [hlen]; decide)]
    rw [show (1000 + (pyStrip (⟨List.replicate 4000 'a', 1, "f2".toList, none,
        1⟩ : Doc).text).length / 4) = 2000 by rw [hlen]]
    rw [packLoop_cons_break 2500 _ _ _ 2000 hc3 (by rw [hlen]; decide) ?_]
    · rw [show pyStrip (⟨List.replicate 4000 'a', 1, "f1".toList, none, 1⟩ :
          Doc).text = List.replicate 4000 'a' from hstrip]
      rfl
    · have hbud : decide (((2000 : ℕ) : ℚ) < ((2500 : ℕ) : ℚ) * (8 / 10))
          = false := by
        rw [decide_eq_false_iff_not]
        push_cast
        norm_num
      rw [hbud, Bool.and_false]

theorem claim_C8_amended_witness :
    ((500 : ℕ) ≤ 2500)
    ∧ (build_token_managed_context pack_docs 2500 []).2 ≤ 2500
    ∧ sumEst (build_token_managed_context pack_docs 2500 []).1 ≤ 2500 :=
  ⟨by decide,
    (claim_C8_amended.1 pack_docs [] 2500 (by decide)).1,
    (claim_C8_amended.1 pack_docs [] 2500 (by decide)).2⟩

end Spec2Proof
